import Mathlib

/-!
Verification of the csv-parser core (`include/internal/raw_csv_data.hpp`):
the character-classification scanning routines (`BasicCSVParser::parse_field`,
`push_row`, the classification lookups `parse_flag` / `ws_flag`) and the
concurrent row channel (`ThreadSafeDeque`).  Bytes are modelled as `Nat`
values 0–255, buffers as `List Nat`, machine indices as `Nat`/`Int` with
explicit attention to the places where C++ `size_t` arithmetic wraps.
-/

namespace CsvParser

/-- ParseFlags: the significance of each character with respect to CSV
parsing (enum class ParseFlags in the source). -/
inductive ParseFlags where
  | NOT_SPECIAL
  | QUOTE
  | DELIMITER
  | NEWLINE
deriving DecidableEq, Repr

/-- Dialect: the two classification tables, modelled as total functions from
byte values to tags (ParseFlagMap) and to the trim-as-whitespace flag
(WhitespaceMap).  The 256-entry signed-index arrays of the source are
modelled separately for the table-lookup claims. -/
structure Dialect where
  parse_flag : Nat → ParseFlags
  ws_flag : Nat → Bool

/-- Length of the maximal leading run of whitespace-flagged bytes: the effect
of the loop `while (i < in.size() && ws_flag(in[i])) i++` on a suffix. -/
def wsRun (d : Dialect) : List Nat → Nat
  | [] => 0
  | b :: bs => if d.ws_flag b then wsRun d bs + 1 else 0

/-- Length of the maximal leading run of NOT_SPECIAL bytes: the effect of
the loop `while (i < in.size() && parse_flag(in[i]) == NOT_SPECIAL) i++`. -/
def nsRun (d : Dialect) : List Nat → Nat
  | [] => 0
  | b :: bs => if d.parse_flag b = ParseFlags.NOT_SPECIAL then nsRun d bs + 1 else 0

/-- Length of the maximal leading run of non-QUOTE bytes: the effect of the
quote-escape loop `while (i < in.size() && parse_flag(in[i]) != QUOTE) i++`. -/
def nqRun (d : Dialect) : List Nat → Nat
  | [] => 0
  | b :: bs => if d.parse_flag b ≠ ParseFlags.QUOTE then nqRun d bs + 1 else 0

/-- Read of `in[j]` with a signed index.  A negative index models the
`size_t` wraparound of `j = i - 1` when `i == 0` (the C++ reads
`in.data()[2^64-1]`); any out-of-bounds read is undefined behaviour in the
source and is given the arbitrary value 0 here. -/
def getI (l : List Nat) (j : Int) : Nat :=
  if j < 0 then 0 else l.getD j.toNat 0

/-- Value of `field_length` after the trailing-whitespace trim loop
`for (size_t j = i - 1; ws_flag(in[j]) && field_length > 0; j--)
field_length--;` started at index `j` with current length `len`. -/
def trimLen (d : Dialect) (l : List Nat) (j : Int) : Nat → Nat
  | 0 => 0
  | len + 1 => if d.ws_flag (getI l j) then trimLen d l (j - 1) len else len + 1

/-- Sequence of indices read by the trailing-whitespace trim loop: the guard
`ws_flag(in[j]) && field_length > 0` evaluates `in[j]` first, so the loop
reads index `j` even when the length is already zero. -/
def trimReads (d : Dialect) (l : List Nat) (j : Int) : Nat → List Int
  | 0 => [j]
  | len + 1 => if d.ws_flag (getI l j) then j :: trimReads d l (j - 1) len else [j]

/-- Indices read by a guarded forward loop that ran from index `a` to its
stop index `b`: positions `a..b-1` passed the guard `i < in.size()` and the
predicate; position `b` is read only if the bound check `b < in.size()`
succeeded (the loop then stopped on the predicate). -/
def readsUpTo (l : List Nat) (a b : Nat) : List Int :=
  (List.range' a (b - a)).map Int.ofNat
    ++ (if b < l.length then [(b : Int)] else [])

/-- BasicCSVParser::parse_field (source lines 154–182), faithfully: trim
leading whitespace, set `field_start` (relative to `current_row_start`) if
it is the negative "unset" sentinel, fast-scan while NOT_SPECIAL (or, in
quote-escape mode, while not QUOTE), compute
`field_length = i - (field_start + current_row_start)`, then trim trailing
whitespace walking backwards from `i - 1`.  Returns the new scan position
`i`, the new `field_start` and the computed `field_length`.  `size_t`
subtraction in `field_length` is modelled with `Nat` subtraction; the
theorems keep it in the range where the two agree. -/
def parse_field (Q : Bool) (d : Dialect) (l : List Nat) (i : Nat)
    (field_start : Int) (current_row_start : Nat) : Nat × Int × Nat :=
  let i1 := i + wsRun d (l.drop i)
  let fs : Int := if field_start < 0 then (i1 : Int) - current_row_start else field_start
  let i2 := i1 + (if Q then nqRun d (l.drop i1) else nsRun d (l.drop i1))
  let len := i2 - (fs.toNat + current_row_start)
  (i2, fs, trimLen d l ((i2 : Int) - 1) len)

/-- All indices read from the span by the three loops of one `parse_field`
call: the leading-whitespace skip, the fast scan, and the trailing trim. -/
def fieldReads (Q : Bool) (d : Dialect) (l : List Nat) (i : Nat)
    (field_start : Int) (current_row_start : Nat) : List Int :=
  let i1 := i + wsRun d (l.drop i)
  let fs : Int := if field_start < 0 then (i1 : Int) - current_row_start else field_start
  let i2 := i1 + (if Q then nqRun d (l.drop i1) else nsRun d (l.drop i1))
  let len := i2 - (fs.toNat + current_row_start)
  readsUpTo l i i1 ++ readsUpTo l i1 i2 ++ trimReads d l ((i2 : Int) - 1) len

/-- Engine state of the scanning state machine.  `field_start` is signed
with the negative "unset" sentinel and is relative to `current_row_start`
(an absolute offset into the session's conceptually continuous buffer);
`fields` is the Raw Field Store of descriptors
(absolute start, length, has-escaped-quote); `row_bounds` is the index in
the store where the in-progress row begins (`field_bounds_index`); `rows`
holds the pushed rows as (field_bounds_index, row_length) ranges into the
shared store. -/
structure EngineState where
  field_start : Int := -1
  field_length : Nat := 0
  current_row_start : Nat := 0
  quote_escape : Bool := false
  has_double_quote : Bool := false
  fields : List (Nat × Nat × Bool) := []
  row_bounds : Nat := 0
  rows : List (Nat × Nat) := []
deriving DecidableEq, Repr

/-- Modelled from the spec: `BasicCSVParser::push_field` (declared in the
source, body not part of this excerpt) — finalize the current field at scan
position `i`: append its descriptor (start, length, has-escaped-quote) to
the Raw Field Store and reset the per-field state to begin the next field.
A field whose start is still unset (a delimiter or newline with no field
content before it) yields an empty descriptor at the current position. -/
def pushFieldSt (st : EngineState) (i : Nat) : EngineState :=
  let start := if st.field_start < 0 then i
    else st.field_start.toNat + st.current_row_start
  { st with
      fields := st.fields ++ [(start, st.field_length, st.has_double_quote)]
      field_start := -1
      field_length := 0
      has_double_quote := false }

/-- BasicCSVParser::push_row (source lines 184–187) at the level of the
engine state: the finalized row's field range is
(`row_bounds`, store length − `row_bounds`), so its end is exactly the
Field Store's current length; the next row begins at the store's length. -/
def pushRowSt (st : EngineState) : EngineState :=
  { st with
      rows := st.rows ++ [(st.row_bounds, st.fields.length - st.row_bounds)]
      row_bounds := st.fields.length }

/-- Modelled from the spec: `BasicCSVParser::parse_loop` (declared in the
source, body not part of this excerpt) — the scanning loop over one chunk,
spec §4.2: per position, if in quote-escape mode run the quote-escape
`parse_field` and on its stopping QUOTE leave quote-escape mode; otherwise
dispatch on the byte's classification: DELIMITER finalizes the field,
NEWLINE finalizes field and row and starts a new row, QUOTE toggles
quote-escape mode (marking the has-escaped-quote flag when a field is
already in progress), NOT_SPECIAL runs `parse_field`.  `v` is the chunk as
a take-extension of the session buffer, positions are absolute, and `fuel`
bounds the iteration count (each iteration advances the position by at
least one, so `v.length - i` iterations suffice). -/
def scanLoopF (d : Dialect) (v : List Nat) :
    Nat → Nat → EngineState → Nat × EngineState
  | 0, i, st => (i, st)
  | fuel + 1, i, st =>
    if i < v.length then
      if st.quote_escape then
        let r := parse_field true d v i st.field_start st.current_row_start
        let st' := { st with field_start := r.2.1, field_length := r.2.2 }
        if r.1 < v.length then
          scanLoopF d v fuel (r.1 + 1) { st' with quote_escape := false }
        else (r.1, st')
      else
        match d.parse_flag (v.getD i 0) with
        | ParseFlags.DELIMITER =>
            scanLoopF d v fuel (i + 1) (pushFieldSt st i)
        | ParseFlags.NEWLINE =>
            let st1 := pushRowSt (pushFieldSt st i)
            scanLoopF d v fuel (i + 1) { st1 with current_row_start := i + 1 }
        | ParseFlags.QUOTE =>
            let st1 := if 0 ≤ st.field_start
              then { st with has_double_quote := true } else st
            scanLoopF d v fuel (i + 1) { st1 with quote_escape := true }
        | ParseFlags.NOT_SPECIAL =>
            let r := parse_field false d v i st.field_start st.current_row_start
            scanLoopF d v fuel r.1
              { st with field_start := r.2.1, field_length := r.2.2 }
    else (i, st)

/-- Modelled from the spec: one `scan` call over the chunk `[lo, hi)` of the
session buffer (spec §4.2's `scan(chunk, is_final_chunk)` without the final
finalization).  Per the spec's resumable-state contract, the persisted
state resumes at the position where the previous chunk stopped, over one
logical contiguous address space. -/
def scan (d : Dialect) (buf : List Nat) (lo hi : Nat) (st : EngineState) :
    Nat × EngineState :=
  scanLoopF d (buf.take hi) (hi - lo) lo st

/-- Modelled from the spec: end-of-input handling for the final chunk (spec
§4.2 step 6) — when input remains in an open field or row, finalize both as
if a newline had been encountered at end-of-input. -/
def finalizeLast (i : Nat) (st : EngineState) : EngineState :=
  if 0 ≤ st.field_start ∨ st.row_bounds < st.fields.length then
    pushRowSt (pushFieldSt st i)
  else st

/-- Fresh engine state at the start of a parse session. -/
def initState : EngineState := {}

/-- Parse the whole buffer as one final chunk. -/
def parseWholeM (d : Dialect) (buf : List Nat) : EngineState :=
  let r := scan d buf 0 buf.length initState
  finalizeLast r.1 r.2

/-- Parse the buffer as two chunks split at byte position `k`: first
`[0, k)` with `last_block = false`, then `[k, buf.length)` with
`last_block = true`. -/
def parseSplitM (d : Dialect) (buf : List Nat) (k : Nat) : EngineState :=
  let r1 := scan d buf 0 k initState
  let r2 := scan d buf k buf.length r1.2
  finalizeLast r2.1 r2.2

/-- Per-byte step of the scanning machine, used to relate chunked runs:
processing the single byte at absolute position `k`. -/
def byteStepAt (d : Dialect) (v : List Nat) (k : Nat) (st : EngineState) :
    EngineState :=
  if st.quote_escape then
    let fs : Int := if st.field_start < 0
      then (k : Int) - st.current_row_start else st.field_start
    if d.parse_flag (v.getD k 0) = ParseFlags.QUOTE then
      { st with field_start := fs
                field_length := k - (fs.toNat + st.current_row_start)
                quote_escape := false }
    else
      { st with field_start := fs
                field_length := k + 1 - (fs.toNat + st.current_row_start) }
  else
    match d.parse_flag (v.getD k 0) with
    | ParseFlags.DELIMITER => pushFieldSt st k
    | ParseFlags.NEWLINE =>
        let st1 := pushRowSt (pushFieldSt st k)
        { st1 with current_row_start := k + 1 }
    | ParseFlags.QUOTE =>
        let st1 := if 0 ≤ st.field_start
          then { st with has_double_quote := true } else st
        { st1 with quote_escape := true }
    | ParseFlags.NOT_SPECIAL =>
        let fs : Int := if st.field_start < 0
          then (k : Int) - st.current_row_start else st.field_start
        { st with field_start := fs
                  field_length := k + 1 - (fs.toNat + st.current_row_start) }

/-- Fold the per-byte step over `count` consecutive positions from `i`. -/
def byteFoldF (d : Dialect) (v : List Nat) :
    Nat → Nat → EngineState → EngineState
  | 0, _, st => st
  | count + 1, i, st => byteFoldF d v count (i + 1) (byteStepAt d v i st)

/-- Concrete test dialect: delimiter `,` (44), quote `"` (34), newline
`\n` (10), whitespace-trimming enabled for the space byte (32). -/
def dcTrim : Dialect where
  parse_flag b :=
    if b = 34 then ParseFlags.QUOTE
    else if b = 44 then ParseFlags.DELIMITER
    else if b = 10 then ParseFlags.NEWLINE
    else ParseFlags.NOT_SPECIAL
  ws_flag b := b == 32

/-- Concrete test dialect with whitespace trimming disabled. -/
def dcPlain : Dialect where
  parse_flag b :=
    if b = 34 then ParseFlags.QUOTE
    else if b = 44 then ParseFlags.DELIMITER
    else if b = 10 then ParseFlags.NEWLINE
    else ParseFlags.NOT_SPECIAL
  ws_flag _ := false

/-- BasicCSVParser::parse_flag (source lines 138–140): look up the
classification of a char `ch` in the 256-entry table `_parse_flags` at
index `ch + 128`.  The char is modelled as a signed value in [-128, 127]
and the table as a list; `none` models an out-of-bounds access. -/
def parse_flag_lookup (tbl : List ParseFlags) (ch : Int) : Option ParseFlags :=
  tbl.get? (ch + 128).toNat

/-- BasicCSVParser::ws_flag (source lines 142–144): the parallel lookup in
the 256-entry whitespace table `_ws_flags` at index `ch + 128`. -/
def ws_flag_lookup (tbl : List Bool) (ch : Int) : Option Bool :=
  tbl.get? (ch + 128).toNat

/-- ThreadSafeDeque (the concurrent row channel): its storage deque and the
`stop_waiting` member, which the source initializes to `true`
(`bool stop_waiting = true;`, line 107).  A default-constructed channel is
modelled by the structure's default field values. -/
structure ThreadSafeDeque (T : Type) where
  data : List T := []
  stop_waiting : Bool := true
deriving DecidableEq, Repr

/-- ThreadSafeDeque::push_back (source lines 58–63): under the lock, append
the item at the back of the deque (and notify all waiters). -/
def push_back {T : Type} (s : ThreadSafeDeque T) (item : T) : ThreadSafeDeque T :=
  { s with data := s.data ++ [item] }

/-- ThreadSafeDeque::pop_front (source lines 72–79): move out the front
element and pop it.  On an empty deque the C++ is undefined behaviour (a
precondition violation, not an exception); the model returns `none` there
and otherwise the removed element with the remaining state. -/
def pop_front {T : Type} (s : ThreadSafeDeque T) : Option (T × ThreadSafeDeque T) :=
  match s.data with
  | [] => none
  | x :: xs => some (x, { s with data := xs })

/-- ThreadSafeDeque::wait_for_data (source lines 65–70) waits on the
condition `!this->empty() || this->stop_waiting == true`; this predicate
decides whether a waiter may return (true means `wait` does not block). -/
def wait_can_return {T : Type} (s : ThreadSafeDeque T) : Bool :=
  !s.data.isEmpty || s.stop_waiting

/-- ThreadSafeDeque::start_waiters (source lines 91–95): set
`stop_waiting` to false. -/
def start_waiters {T : Type} (s : ThreadSafeDeque T) : ThreadSafeDeque T :=
  { s with stop_waiting := false }

/-- ThreadSafeDeque::stop_waiters (source lines 97–101): set
`stop_waiting` to true. -/
def stop_waiters {T : Type} (s : ThreadSafeDeque T) : ThreadSafeDeque T :=
  { s with stop_waiting := true }

/-- A default-constructed ThreadSafeDeque: empty storage and
`stop_waiting = true` (member initializer, source line 107). -/
def defaultDeque (T : Type) : ThreadSafeDeque T := {}

/-- One channel operation of a producer/consumer trace. -/
inductive ChanOp (T : Type) where
  | push (x : T)
  | pop
deriving DecidableEq

/-- Run a trace of channel operations: `push x` calls `push_back`, `pop`
calls `pop_front`.  Returns the final channel state and the list of popped
elements in pop order (a pop on an empty channel — undefined behaviour in
the source — removes nothing here; the FIFO theorem assumes a valid trace). -/
def runOps {T : Type} : List (ChanOp T) → ThreadSafeDeque T → ThreadSafeDeque T × List T
  | [], s => (s, [])
  | ChanOp.push x :: ops, s => runOps ops (push_back s x)
  | ChanOp.pop :: ops, s =>
      match pop_front s with
      | none => runOps ops s
      | some (x, s') =>
          let r := runOps ops s'
          (r.1, x :: r.2)

/-- The values pushed by a trace, in push order. -/
def pushesOf {T : Type} : List (ChanOp T) → List T
  | [] => []
  | ChanOp.push x :: ops => x :: pushesOf ops
  | ChanOp.pop :: ops => pushesOf ops

/-- A trace is valid when every pop happens on a non-empty channel (the
caller-side precondition of `pop_front`). -/
def validOpsB {T : Type} : List (ChanOp T) → ThreadSafeDeque T → Bool
  | [], _ => true
  | ChanOp.push x :: ops, s => validOpsB ops (push_back s x)
  | ChanOp.pop :: ops, s =>
      match pop_front s with
      | none => false
      | some (_, s') => validOpsB ops s'

/-- RawCSVData: the owning store whose `fields` member is the append-only
sequence of field descriptors shared by all rows of one buffer. -/
structure RawCSVData where
  fields : List (Nat × Nat) := []
deriving DecidableEq, Repr

/-- CSVRow: a handle holding a shared reference to the store (`data`), the
index in the store where its field range begins (`field_bounds_index`) and
the range's length (`row_length`). -/
structure CSVRow where
  data : RawCSVData := {}
  field_bounds_index : Nat := 0
  row_length : Nat := 0
deriving DecidableEq, Repr

/-- BasicCSVParser::push_row (source lines 184–187): set the row's
`row_length` to `row.data->fields.size() - row.field_bounds_index` at the
moment of the push, then push the row at the back of the record
collection. -/
def push_row (row : CSVRow) (records : List CSVRow) : List CSVRow :=
  let r := { row with
    row_length := row.data.fields.length - row.field_bounds_index }
  records ++ [r]

/-- The public member functions of ThreadSafeDeque (`begin`/`end` are the
iterator accessors, `subscript` is `operator[]`). -/
inductive DequeMethod where
  | emptyQuery
  | front
  | subscript
  | pushBack
  | waitForData
  | popFront
  | sizeQuery
  | beginIter
  | endIter
  | startWaiters
  | stopWaiters
  | clearAll
deriving DecidableEq, Repr

/-- Which methods acquire the channel's mutex (`std::unique_lock` on
`this->_lock`), read directly off the source: `push_back` (line 59),
`wait_for_data` (line 66), `pop_front` (line 73), `start_waiters`
(line 92) and `stop_waiters` (line 98) lock; `empty` (lines 45–48),
`front` (50–52), `operator[]` (54–56), `size` (line 81), `begin` (83–85),
`end` (87–89) and `clear` (103–105) do not. -/
def acquiresLock : DequeMethod → Bool
  | DequeMethod.pushBack => true
  | DequeMethod.waitForData => true
  | DequeMethod.popFront => true
  | DequeMethod.startWaiters => true
  | DequeMethod.stopWaiters => true
  | _ => false

/-- Which methods touch the underlying deque storage `this->data`:
all of them except `start_waiters`/`stop_waiters`, which only write the
`stop_waiting` flag (`wait_for_data` reads the storage through `empty()`
inside its wait predicate). -/
def touchesStorage : DequeMethod → Bool
  | DequeMethod.startWaiters => false
  | DequeMethod.stopWaiters => false
  | _ => true

/-! Helper lemmas. -/

theorem drop_getD_cons (l : List Nat) (i : Nat) (h : i < l.length) :
    l.drop i = l.getD i 0 :: l.drop (i + 1) := by
  rw [List.drop_eq_getElem_cons h, List.getD_eq_getElem l 0 h]

theorem getD_take (l : List Nat) (k i : Nat) (h : i < k) :
    (l.take k).getD i 0 = l.getD i 0 := by
  rw [List.getD_eq_getElem?_getD, List.getD_eq_getElem?_getD, List.getElem?_take]
  simp [h]

/-- Every byte of the run `f (l.drop i)` satisfies the run's predicate;
generic over the three scanning loops. -/
theorem run_all (P : Nat → Prop) [DecidablePred P] (f : List Nat → Nat)
    (hnil : f [] = 0)
    (hcons : ∀ b bs, f (b :: bs) = if P b then f bs + 1 else 0)
    (l : List Nat) :
    ∀ s i, f (l.drop i) = s → ∀ k, i ≤ k → k < i + s → P (l.getD k 0) := by
  intro s
  induction s with
  | zero => intro i _ k _ hk; omega
  | succ s ih =>
    intro i h k hik hk
    have hi : i < l.length := by
      by_contra hc
      push_neg at hc
      rw [List.drop_eq_nil_of_le hc, hnil] at h
      omega
    rw [drop_getD_cons l i hi, hcons] at h
    by_cases hP : P (l.getD i 0)
    · rw [if_pos hP] at h
      rcases Nat.eq_or_lt_of_le hik with rfl | hlt
      · exact hP
      · exact ih (i + 1) (by omega) k hlt (by omega)
    · rw [if_neg hP] at h
      omega

/-- The byte at the stop position of a run fails the run's predicate. -/
theorem run_stop (P : Nat → Prop) [DecidablePred P] (f : List Nat → Nat)
    (hcons : ∀ b bs, f (b :: bs) = if P b then f bs + 1 else 0)
    (l : List Nat) :
    ∀ s i, f (l.drop i) = s → i + s < l.length → ¬ P (l.getD (i + s) 0) := by
  intro s
  induction s with
  | zero =>
    intro i h hlt
    rw [drop_getD_cons l i (by omega), hcons] at h
    by_cases hP : P (l.getD i 0)
    · rw [if_pos hP] at h; omega
    · simpa using hP
  | succ s ih =>
    intro i h hlt
    have hi : i < l.length := by omega
    rw [drop_getD_cons l i hi, hcons] at h
    by_cases hP : P (l.getD i 0)
    · rw [if_pos hP] at h
      have := ih (i + 1) (by omega) (by omega)
      rw [show (i + 1) + s = i + (s + 1) by omega] at this
      exact this
    · rw [if_neg hP] at h; omega

/-- A run never exceeds the length of its suffix. -/
theorem run_le (P : Nat → Prop) [DecidablePred P] (f : List Nat → Nat)
    (hnil : f [] = 0)
    (hcons : ∀ b bs, f (b :: bs) = if P b then f bs + 1 else 0) :
    ∀ t : List Nat, f t ≤ t.length := by
  intro t
  induction t with
  | nil => rw [hnil]; simp
  | cons b bs ih =>
    rw [hcons]
    by_cases hP : P b
    · rw [if_pos hP]; simpa using ih
    · rw [if_neg hP]; simp

/-- A run starting at a byte that satisfies the predicate has length at
least one. -/
theorem run_pos (P : Nat → Prop) [DecidablePred P] (f : List Nat → Nat)
    (hcons : ∀ b bs, f (b :: bs) = if P b then f bs + 1 else 0)
    (l : List Nat) (i : Nat) (hi : i < l.length) (hP : P (l.getD i 0)) :
    1 ≤ f (l.drop i) := by
  rw [drop_getD_cons l i hi, hcons, if_pos hP]
  omega

theorem wsRun_cons (d : Dialect) (b : Nat) (bs : List Nat) :
    wsRun d (b :: bs) = if d.ws_flag b = true then wsRun d bs + 1 else 0 := by
  simp [wsRun]

theorem nsRun_cons (d : Dialect) (b : Nat) (bs : List Nat) :
    nsRun d (b :: bs) =
      if d.parse_flag b = ParseFlags.NOT_SPECIAL then nsRun d bs + 1 else 0 := rfl

theorem nqRun_cons (d : Dialect) (b : Nat) (bs : List Nat) :
    nqRun d (b :: bs) =
      if d.parse_flag b ≠ ParseFlags.QUOTE then nqRun d bs + 1 else 0 := rfl

theorem wsRun_all (d : Dialect) (l : List Nat) (i k : Nat) (h1 : i ≤ k)
    (h2 : k < i + wsRun d (l.drop i)) : d.ws_flag (l.getD k 0) = true :=
  run_all (fun b => d.ws_flag b = true) (wsRun d) rfl (wsRun_cons d) l
    (wsRun d (l.drop i)) i rfl k h1 h2

theorem wsRun_stop (d : Dialect) (l : List Nat) (i : Nat)
    (h : i + wsRun d (l.drop i) < l.length) :
    ¬ d.ws_flag (l.getD (i + wsRun d (l.drop i)) 0) = true :=
  run_stop (fun b => d.ws_flag b = true) (wsRun d) (wsRun_cons d) l
    (wsRun d (l.drop i)) i rfl h

theorem wsRun_le (d : Dialect) (t : List Nat) : wsRun d t ≤ t.length :=
  run_le (fun b => d.ws_flag b = true) (wsRun d) rfl (wsRun_cons d) t

theorem nsRun_all (d : Dialect) (l : List Nat) (i k : Nat) (h1 : i ≤ k)
    (h2 : k < i + nsRun d (l.drop i)) :
    d.parse_flag (l.getD k 0) = ParseFlags.NOT_SPECIAL :=
  run_all (fun b => d.parse_flag b = ParseFlags.NOT_SPECIAL) (nsRun d) rfl
    (nsRun_cons d) l (nsRun d (l.drop i)) i rfl k h1 h2

theorem nsRun_le (d : Dialect) (t : List Nat) : nsRun d t ≤ t.length :=
  run_le (fun b => d.parse_flag b = ParseFlags.NOT_SPECIAL) (nsRun d) rfl
    (nsRun_cons d) t

theorem nsRun_pos (d : Dialect) (l : List Nat) (i : Nat) (hi : i < l.length)
    (hP : d.parse_flag (l.getD i 0) = ParseFlags.NOT_SPECIAL) :
    1 ≤ nsRun d (l.drop i) :=
  run_pos (fun b => d.parse_flag b = ParseFlags.NOT_SPECIAL) (nsRun d)
    (nsRun_cons d) l i hi hP

theorem nqRun_all (d : Dialect) (l : List Nat) (i k : Nat) (h1 : i ≤ k)
    (h2 : k < i + nqRun d (l.drop i)) :
    d.parse_flag (l.getD k 0) ≠ ParseFlags.QUOTE :=
  run_all (fun b => d.parse_flag b ≠ ParseFlags.QUOTE) (nqRun d) rfl
    (nqRun_cons d) l (nqRun d (l.drop i)) i rfl k h1 h2

theorem nqRun_stop (d : Dialect) (l : List Nat) (i : Nat)
    (h : i + nqRun d (l.drop i) < l.length) :
    d.parse_flag (l.getD (i + nqRun d (l.drop i)) 0) = ParseFlags.QUOTE := by
  have := run_stop (fun b => d.parse_flag b ≠ ParseFlags.QUOTE) (nqRun d)
    (nqRun_cons d) l (nqRun d (l.drop i)) i rfl h
  simpa using this

theorem nqRun_le (d : Dialect) (t : List Nat) : nqRun d t ≤ t.length :=
  run_le (fun b => d.parse_flag b ≠ ParseFlags.QUOTE) (nqRun d) rfl
    (nqRun_cons d) t

/-- Generalized FIFO invariant of the channel: over any valid trace, the
popped elements followed by the remaining queue equal the initial queue
followed by the pushed elements in push order. -/
theorem runOps_fifo {T : Type} :
    ∀ (ops : List (ChanOp T)) (s : ThreadSafeDeque T),
      validOpsB ops s = true →
      (runOps ops s).2 ++ (runOps ops s).1.data = s.data ++ pushesOf ops := by
  intro ops
  induction ops with
  | nil => intro s _; simp [runOps, pushesOf]
  | cons op ops ih =>
    intro s h
    cases op with
    | push x =>
      have := ih (push_back s x) h
      simpa [runOps, pushesOf, push_back] using this
    | pop =>
      obtain ⟨data, sw⟩ := s
      cases data with
      | nil => simp [validOpsB, pop_front] at h
      | cons y ys =>
        have hv : validOpsB ops ⟨ys, sw⟩ = true := by
          simpa [validOpsB, pop_front] using h
        have := ih ⟨ys, sw⟩ hv
        simpa [runOps, pushesOf, pop_front] using this

/-! Claim theorems. -/

/-- C4 counterexample: the claim "every access path to the Channel's
internal storage acquires the Channel's mutex before touching the
underlying deque" is false of the source: `size()` (line 81) reads
`this->data.size()` without taking `_lock`. -/
theorem C4_counterexample :
    ¬ (∀ m : DequeMethod, touchesStorage m = true → acquiresLock m = true) :=
  fun h => absurd (h DequeMethod.sizeQuery rfl) (by decide)

/-- C4 (amended): among the ThreadSafeDeque member functions that touch the
underlying deque, exactly `push_back`, `wait_for_data` and `pop_front`
acquire the mutex; the read-only queries `empty`, `front`, `operator[]`,
`size`, `begin`, `end` and the mutating `clear` access the storage without
locking (`start_waiters`/`stop_waiters` lock but touch only the
`stop_waiting` flag). -/
theorem C4_locking_discipline (m : DequeMethod) :
    (touchesStorage m = true ∧ acquiresLock m = true) ↔
      (m = DequeMethod.pushBack ∨ m = DequeMethod.waitForData ∨
        m = DequeMethod.popFront) := by
  cases m <;> simp [touchesStorage, acquiresLock]

/-- C5: for every sequence of push_back and pop_front operations in which
each pop happens on a non-empty channel, the elements returned by
`pop_front`, in order, followed by the elements remaining in the channel,
are exactly the elements passed to `push_back` in push order — the channel
is strictly FIFO. -/
theorem C5_channel_fifo {T : Type} (ops : List (ChanOp T))
    (h : validOpsB ops (defaultDeque T) = true) :
    (runOps ops (defaultDeque T)).2 ++ (runOps ops (defaultDeque T)).1.data
      = pushesOf ops :=
  runOps_fifo ops (defaultDeque T) h

/-- C5 witness: the trace push 1, push 2, pop, push 3, pop pops 1 then 2
and leaves 3 queued. -/
theorem C5_witness :
    (runOps [ChanOp.push 1, ChanOp.push 2, ChanOp.pop, ChanOp.push 3,
        ChanOp.pop] (defaultDeque Nat)).2
      ++ (runOps [ChanOp.push 1, ChanOp.push 2, ChanOp.pop, ChanOp.push 3,
        ChanOp.pop] (defaultDeque Nat)).1.data
      = pushesOf [ChanOp.push 1, ChanOp.push 2, ChanOp.pop, ChanOp.push 3,
        ChanOp.pop] :=
  C5_channel_fifo _ (by decide)

/-- C6: under the precondition that the queue is non-empty, `pop_front`
removes and returns the oldest (front) element; the result is always
defined there (in the model every channel operation is a total function,
mirroring that no operation raises an exception — `pop_front` is
`noexcept`), while popping an empty queue is the unmodelled precondition
violation (`none`), not a handled error. -/
theorem C6_pop_front_spec {T : Type} (s : ThreadSafeDeque T)
    (h : s.data ≠ []) :
    pop_front s = some (s.data.head h, { s with data := s.data.tail }) := by
  obtain ⟨data, sw⟩ := s
  cases data with
  | nil => simp at h
  | cons x xs => rfl

/-- C6 witness: popping the channel holding 5 then 7 returns 5 and leaves
7. -/
theorem C6_witness :
    pop_front (⟨[5, 7], true⟩ : ThreadSafeDeque Nat)
      = some (5, ⟨[7], true⟩) :=
  C6_pop_front_spec ⟨[5, 7], true⟩ (by decide)

/-- C7: for every char `ch` in the signed range [-128, 127] — including the
negative representations of bytes 128–255 — the lookup index `ch + 128` of
`parse_flag`/`ws_flag` is non-negative and below 256, so on the 256-entry
tables `_parse_flags`/`_ws_flags` both lookups are in bounds and yield a
defined tag. -/
theorem C7_classification_in_bounds (ptbl : List ParseFlags)
    (wtbl : List Bool) (ch : Int)
    (hp : ptbl.length = 256) (hw : wtbl.length = 256)
    (h1 : -128 ≤ ch) (h2 : ch ≤ 127) :
    0 ≤ ch + 128 ∧ (ch + 128).toNat < 256 ∧
      (parse_flag_lookup ptbl ch).isSome ∧ (ws_flag_lookup wtbl ch).isSome := by
  refine ⟨by omega, by omega, ?_, ?_⟩
  · rw [parse_flag_lookup, List.get?_eq_getElem?]
    have : (ch + 128).toNat < ptbl.length := by omega
    simp [List.getElem?_eq_getElem this]
  · rw [ws_flag_lookup, List.get?_eq_getElem?]
    have : (ch + 128).toNat < wtbl.length := by omega
    simp [List.getElem?_eq_getElem this]

/-- C7 witness: char -1 (byte 255) resolves in bounds on concrete
256-entry tables. -/
theorem C7_witness :
    0 ≤ (-1 : Int) + 128 ∧ ((-1 : Int) + 128).toNat < 256 ∧
      (parse_flag_lookup (List.replicate 256 ParseFlags.NOT_SPECIAL)
        (-1)).isSome ∧
      (ws_flag_lookup (List.replicate 256 false) (-1)).isSome :=
  C7_classification_in_bounds _ _ (-1) (List.length_replicate 256 _)
    (List.length_replicate 256 _) (by decide) (by decide)

/-- C8: `push_row` appends the row with `row_length` set to the store's
current `fields.size()` minus the row's `field_bounds_index` at the moment
of the push, so the pushed row's field range ends exactly at the Field
Store's current length. -/
theorem C8_push_row_range (row : CSVRow) (records : List CSVRow)
    (h : row.field_bounds_index ≤ row.data.fields.length) :
    (push_row row records).getLast? = some { row with
        row_length := row.data.fields.length - row.field_bounds_index } ∧
      row.field_bounds_index +
        (row.data.fields.length - row.field_bounds_index)
        = row.data.fields.length := by
  constructor
  · rw [push_row, List.getLast?_concat]
  · omega

/-- C8 witness: pushing a row whose range starts at index 1 of a two-field
store yields row_length 1, ending exactly at the store's length 2. -/
theorem C8_witness :
    (push_row ⟨⟨[(0, 1), (1, 2)]⟩, 1, 0⟩ []).getLast?
      = some ⟨⟨[(0, 1), (1, 2)]⟩, 1, 1⟩ ∧
      1 + (2 - 1) = 2 :=
  C8_push_row_range ⟨⟨[(0, 1), (1, 2)]⟩, 1, 0⟩ [] (by decide)

/-- C10: a default-constructed ThreadSafeDeque has `stop_waiting = true`
and empty storage, so `wait_for_data`'s wait predicate holds immediately —
the wait returns without any row pushed and without any stop signal raised
— and only after `start_waiters` sets `stop_waiting` to false does the
wait predicate fail on an empty channel (blocking begins). -/
theorem C10_default_wait_returns (T : Type) :
    (defaultDeque T).stop_waiting = true ∧ (defaultDeque T).data = [] ∧
      wait_can_return (defaultDeque T) = true ∧
      wait_can_return (start_waiters (defaultDeque T)) = false :=
  ⟨rfl, rfl, rfl, rfl⟩

/-- C3: a field whose bytes all classify as whitespace (every byte from the
starting index to the position where `parse_field` stops is
whitespace-flagged, i.e. trimming is enabled for all of them) produces a
`field_length` of zero — the field materializes as the empty string. -/
theorem C3_all_whitespace_field (d : Dialect) (l : List Nat) (i crs : Nat)
    (_hcrs : crs ≤ i)
    (hw : ∀ k, i ≤ k → k < (parse_field false d l i (-1) crs).1 →
      d.ws_flag (l.getD k 0) = true) :
    (parse_field false d l i (-1) crs).2.2 = 0 := by
  have hns : nsRun d (l.drop (i + wsRun d (l.drop i))) = 0 := by
    by_contra hno
    have hpos : 1 ≤ nsRun d (l.drop (i + wsRun d (l.drop i))) :=
      Nat.one_le_iff_ne_zero.mpr hno
    have hlen : i + wsRun d (l.drop i) < l.length := by
      by_contra hc
      push_neg at hc
      rw [List.drop_eq_nil_of_le hc] at hpos
      simp [nsRun] at hpos
    have hwsk : d.ws_flag (l.getD (i + wsRun d (l.drop i)) 0) = true := by
      apply hw
      · exact Nat.le_add_right _ _
      · have hp1 : (parse_field false d l i (-1) crs).1
            = (i + wsRun d (l.drop i))
              + nsRun d (l.drop (i + wsRun d (l.drop i))) := by
          simp [parse_field]
        omega
    exact (wsRun_stop d l i hlen) hwsk
  have hval : (parse_field false d l i (-1) crs).2.2
      = trimLen d l (((i + wsRun d (l.drop i) : Nat) : Int) - 1)
          ((i + wsRun d (l.drop i))
            - ((((i + wsRun d (l.drop i) : Nat) : Int) - (crs : Int)).toNat
                + crs)) := by
    simp [parse_field, hns]
  rw [hval, Int.toNat_sub]
  rw [show i + wsRun d (l.drop i) - (i + wsRun d (l.drop i) - crs + crs)
      = 0 by omega]
  rfl

/-- C3 witness: the all-whitespace field of the span " ," (space then
delimiter) with space whitespace-flagged trims to length zero. -/
theorem C3_witness :
    (parse_field false dcTrim [32, 44] 0 (-1) 0).2.2 = 0 :=
  C3_all_whitespace_field dcTrim [32, 44] 0 0 (Nat.le_refl 0)
    (fun k _ hk => by
      have hk1 : k = 0 := by
        have : (parse_field false dcTrim [32, 44] 0 (-1) 0).1 = 1 := by decide
        omega
      subst hk1
      decide)

/-- C2: in quote-escape mode, `parse_field` treats bytes classified as
delimiter or newline as ordinary field content: every byte strictly before
its stop position is not QUOTE-classified (so a quoted field is never
split at an internal delimiter or newline byte), and if the scan stops
inside the span it stops exactly on a QUOTE-classified byte — the only
structural terminator in quote-escape mode.  The hypothesis rules out the
degenerate dialect in which the quote byte itself is whitespace-flagged
(the leading trim would then consume quotes). -/
theorem C2_quote_escape_content (d : Dialect) (l : List Nat) (i : Nat)
    (fs : Int) (crs : Nat)
    (hq : ∀ b, d.ws_flag b = true → d.parse_flag b ≠ ParseFlags.QUOTE) :
    (∀ k, i ≤ k → k < (parse_field true d l i fs crs).1 →
        d.parse_flag (l.getD k 0) ≠ ParseFlags.QUOTE) ∧
    ((parse_field true d l i fs crs).1 < l.length →
        d.parse_flag (l.getD (parse_field true d l i fs crs).1 0)
          = ParseFlags.QUOTE) := by
  have hp : (parse_field true d l i fs crs).1
      = (i + wsRun d (l.drop i))
        + nqRun d (l.drop (i + wsRun d (l.drop i))) := by
    simp [parse_field]
  constructor
  · intro k hik hk
    rw [hp] at hk
    by_cases hk1 : k < i + wsRun d (l.drop i)
    · exact hq _ (wsRun_all d l i k hik hk1)
    · push_neg at hk1
      exact nqRun_all d l (i + wsRun d (l.drop i)) k hk1 hk
  · intro hlt
    rw [hp] at hlt ⊢
    exact nqRun_stop d l (i + wsRun d (l.drop i)) hlt

/-- C2 witness: scanning `a,b"x` in quote-escape mode passes over the
delimiter at index 1 as content and stops exactly on the quote at index
3. -/
theorem C2_witness :
    dcTrim.parse_flag (([97, 44, 98, 34, 120] : List Nat).getD 1 0)
      ≠ ParseFlags.QUOTE ∧
    dcTrim.parse_flag
        (([97, 44, 98, 34, 120] : List Nat).getD
          (parse_field true dcTrim [97, 44, 98, 34, 120] 0 (-1) 0).1 0)
      = ParseFlags.QUOTE := by
  have hq : ∀ b, dcTrim.ws_flag b = true →
      dcTrim.parse_flag b ≠ ParseFlags.QUOTE := by
    intro b hb
    have hb32 : b = 32 := by simpa [dcTrim] using hb
    subst hb32
    decide
  exact ⟨(C2_quote_escape_content dcTrim [97, 44, 98, 34, 120] 0 (-1) 0
      hq).1 1 (by decide) (by decide),
    (C2_quote_escape_content dcTrim [97, 44, 98, 34, 120] 0 (-1) 0 hq).2
      (by decide)⟩

/-- Bound for the trailing-trim loop's reads: if some index at or below the
start index holds a non-whitespace byte, the backward walk stops at or
above it, so every read stays within the span. -/
theorem trimReads_bounded (d : Dialect) (l : List Nat) :
    ∀ (len : Nat) (j : Int), j < (l.length : Int) →
      (∃ k : Nat, (k : Int) ≤ j ∧ d.ws_flag (l.getD k 0) = false) →
      ∀ r ∈ trimReads d l j len, 0 ≤ r ∧ r < (l.length : Int) := by
  intro len
  induction len with
  | zero =>
    rintro j hj ⟨k, hk1, -⟩ r hr
    simp only [trimReads, List.mem_singleton] at hr
    subst hr
    exact ⟨le_trans (Int.ofNat_nonneg k) hk1, hj⟩
  | succ len ih =>
    rintro j hj ⟨k, hk1, hk2⟩ r hr
    simp only [trimReads] at hr
    by_cases hw : d.ws_flag (getI l j) = true
    · rw [if_pos hw] at hr
      rcases List.mem_cons.mp hr with rfl | hr'
      · exact ⟨le_trans (Int.ofNat_nonneg k) hk1, hj⟩
      · refine ih (j - 1) (by omega) ⟨k, ?_, hk2⟩ r hr'
        rcases lt_or_eq_of_le hk1 with hlt | heq
        · omega
        · exfalso
          have hj0 : (0 : Int) ≤ j := heq ▸ Int.ofNat_nonneg k
          have hg : getI l j = l.getD k 0 := by
            rw [getI, if_neg (by omega)]
            congr 1
            omega
          rw [hg, hk2] at hw
          exact Bool.false_ne_true hw
    · rw [if_neg hw] at hr
      simp only [List.mem_singleton] at hr
      subst hr
      exact ⟨le_trans (Int.ofNat_nonneg k) hk1, hj⟩

/-- The reads of a guarded forward loop that stops at `b ≤ l.length` all
lie inside the span. -/
theorem readsUpTo_valid (l : List Nat) (a b : Nat) (hb : b ≤ l.length) :
    ∀ r ∈ readsUpTo l a b, 0 ≤ r ∧ r < (l.length : Int) := by
  intro r hr
  simp only [readsUpTo, List.mem_append, List.mem_map,
    List.mem_range'_1] at hr
  rcases hr with ⟨k, ⟨hk1, hk2⟩, rfl⟩ | h2
  · have hkl : k < l.length := by omega
    refine ⟨?_, ?_⟩ <;> rw [Int.ofNat_eq_natCast] <;> omega
  · by_cases hbl : b < l.length
    · rw [if_pos hbl] at h2
      simp only [List.mem_singleton] at h2
      subst h2
      exact ⟨Int.ofNat_nonneg b, by exact_mod_cast hbl⟩
    · rw [if_neg hbl] at h2
      simp at h2

/-- C9 (amended): every index read by the three loops of `parse_field` lies
inside the span, provided the loops stop at a positive position and some
byte before the stop position is not whitespace-flagged.  Without those
side conditions the claim is false: when the scan position is still 0 at
the trailing-trim loop (the chunk begins with a delimiter, newline or — in
quote mode — quote byte), or when everything below the stop position is
whitespace under a stale non-negative `field_start`, the trim loop's guard
reads index -1 (`size_t`-wrapped in the C++), out of bounds. -/
theorem C9_reads_in_bounds (Q : Bool) (d : Dialect) (l : List Nat)
    (i : Nat) (fs : Int) (crs : Nat)
    (hi : i < l.length)
    (h1 : 1 ≤ (parse_field Q d l i fs crs).1)
    (h2 : ∃ k : Nat, k < (parse_field Q d l i fs crs).1 ∧
      d.ws_flag (l.getD k 0) = false) :
    ∀ r ∈ fieldReads Q d l i fs crs, 0 ≤ r ∧ r < (l.length : Int) := by
  have hi1 : i + wsRun d (l.drop i) ≤ l.length := by
    have := wsRun_le d (l.drop i)
    rw [List.length_drop] at this
    omega
  have hrun : (if Q then nqRun d (l.drop (i + wsRun d (l.drop i)))
      else nsRun d (l.drop (i + wsRun d (l.drop i))))
      ≤ (l.drop (i + wsRun d (l.drop i))).length := by
    cases Q
    · simpa using nsRun_le d (l.drop (i + wsRun d (l.drop i)))
    · simpa using nqRun_le d (l.drop (i + wsRun d (l.drop i)))
  have hp : (i + wsRun d (l.drop i))
      + (if Q then nqRun d (l.drop (i + wsRun d (l.drop i)))
          else nsRun d (l.drop (i + wsRun d (l.drop i)))) ≤ l.length := by
    rw [List.length_drop] at hrun
    omega
  have hp_eq : (parse_field Q d l i fs crs).1
      = (i + wsRun d (l.drop i))
        + (if Q then nqRun d (l.drop (i + wsRun d (l.drop i)))
            else nsRun d (l.drop (i + wsRun d (l.drop i)))) := by
    simp [parse_field]
  intro r hr
  simp only [fieldReads] at hr
  rw [← hp_eq] at hr
  rw [← hp_eq] at hp
  rcases List.mem_append.mp hr with h12 | h3
  · rcases List.mem_append.mp h12 with ha | hb
    · exact readsUpTo_valid l i (i + wsRun d (l.drop i)) hi1 r ha
    · exact readsUpTo_valid l (i + wsRun d (l.drop i)) _ hp r hb
  · apply trimReads_bounded d l _ _ ?_ ?_ r h3
    · omega
    · obtain ⟨k, hk1, hk2⟩ := h2
      refine ⟨k, ?_, hk2⟩
      omega

/-- C9 counterexample: the claim as stated — all reads in bounds for every
call with an in-bounds starting index — is false: on the one-byte span ","
(a delimiter) at `i = 0` with a fresh field, the trailing-trim loop's first
guard evaluation reads index -1 (in the C++, `in[j]` with
`j = (size_t)0 - 1`), before the start of the span. -/
theorem C9_counterexample :
    0 < ([44] : List Nat).length ∧
    ¬ (∀ r ∈ fieldReads false dcTrim [44] 0 (-1) 0,
        0 ≤ r ∧ r < (([44] : List Nat).length : Int)) := by
  refine ⟨by decide, ?_⟩
  decide

/-- C9 witness: on the span "a," from index 0 all reads of `parse_field`
are in bounds. -/
theorem C9_witness :
    1 ≤ (parse_field false dcTrim [97, 44] 0 (-1) 0).1 ∧
    ∀ r ∈ fieldReads false dcTrim [97, 44] 0 (-1) 0,
      0 ≤ r ∧ r < (([97, 44] : List Nat).length : Int) :=
  ⟨by decide,
    C9_reads_in_bounds false dcTrim [97, 44] 0 (-1) 0 (by decide)
      (by decide) ⟨0, by decide, by decide⟩⟩

/-! Chunk-split machinery: with whitespace trimming disabled the chunked
scan agrees with a per-byte fold, which composes across any split. -/

theorem wsRun_zero (d : Dialect) (hws : ∀ b, d.ws_flag b = false) :
    ∀ t : List Nat, wsRun d t = 0 := by
  intro t
  cases t with
  | nil => rfl
  | cons b bs => simp [wsRun, hws b]

theorem trimLen_id (d : Dialect) (hws : ∀ b, d.ws_flag b = false)
    (l : List Nat) : ∀ (len : Nat) (j : Int), trimLen d l j len = len := by
  intro len
  cases len with
  | zero => intro j; rfl
  | succ len => intro j; simp [trimLen, hws]

theorem parse_field_hws (d : Dialect) (hws : ∀ b, d.ws_flag b = false)
    (Q : Bool) (v : List Nat) (i : Nat) (fs : Int) (crs : Nat) :
    parse_field Q d v i fs crs
      = (i + (if Q then nqRun d (v.drop i) else nsRun d (v.drop i)),
          (if fs < 0 then (i : Int) - crs else fs),
          i + (if Q then nqRun d (v.drop i) else nsRun d (v.drop i))
            - ((if fs < 0 then (i : Int) - crs else fs).toNat + crs)) := by
  simp only [parse_field, wsRun_zero d hws, Nat.add_zero,
    trimLen_id d hws]

theorem byteFoldF_add (d : Dialect) (v : List Nat) :
    ∀ (a b i : Nat) (st : EngineState),
      byteFoldF d v (a + b) i st
        = byteFoldF d v b (i + a) (byteFoldF d v a i st) := by
  intro a
  induction a with
  | zero => intro b i st; simp [byteFoldF]
  | succ a ih =>
    intro b i st
    rw [show a + 1 + b = (a + b) + 1 by omega]
    show byteFoldF d v (a + b) (i + 1) (byteStepAt d v i st)
      = byteFoldF d v b (i + (a + 1)) (byteFoldF d v a (i + 1) (byteStepAt d v i st))
    rw [ih b (i + 1) (byteStepAt d v i st),
      show i + 1 + a = i + (a + 1) by omega]

theorem byteStepAt_congr (d : Dialect) (v1 v2 : List Nat) (k : Nat)
    (st : EngineState) (h : v1.getD k 0 = v2.getD k 0) :
    byteStepAt d v1 k st = byteStepAt d v2 k st := by
  simp only [byteStepAt, h]

theorem byteFoldF_take (d : Dialect) (l : List Nat) (k : Nat) :
    ∀ (count i : Nat) (st : EngineState), i + count ≤ k →
      byteFoldF d (l.take k) count i st = byteFoldF d l count i st := by
  intro count
  induction count with
  | zero => intro i st _; rfl
  | succ count ih =>
    intro i st hik
    show byteFoldF d (l.take k) count (i + 1) (byteStepAt d (l.take k) i st)
      = byteFoldF d l count (i + 1) (byteStepAt d l i st)
    rw [byteStepAt_congr d (l.take k) l i st (getD_take l k i (by omega))]
    exact ih (i + 1) (byteStepAt d l i st) (by omega)

theorem byteStepAt_crs (d : Dialect) (v : List Nat) (i : Nat)
    (st : EngineState) (h : st.current_row_start ≤ i) :
    (byteStepAt d v i st).current_row_start ≤ i + 1 := by
  rw [byteStepAt]
  by_cases hq : st.quote_escape
  · rw [if_pos hq]
    by_cases hf : d.parse_flag (v.getD i 0) = ParseFlags.QUOTE
    · rw [if_pos hf]; simpa using by omega
    · rw [if_neg hf]; simpa using by omega
  · rw [if_neg hq]
    by_cases hfs : (0 : Int) ≤ st.field_start <;>
      rcases hfl : d.parse_flag (v.getD i 0) with _ | _ | _ | _ <;>
        simp [hfl, hfs, pushFieldSt, pushRowSt] <;> omega

theorem byteFoldF_crs (d : Dialect) (v : List Nat) :
    ∀ (count i : Nat) (st : EngineState), st.current_row_start ≤ i →
      (byteFoldF d v count i st).current_row_start ≤ i + count := by
  intro count
  induction count with
  | zero => intro i st h; simpa using h
  | succ count ih =>
    intro i st h
    show (byteFoldF d v count (i + 1) (byteStepAt d v i st)).current_row_start
      ≤ i + (count + 1)
    have := ih (i + 1) (byteStepAt d v i st) (byteStepAt_crs d v i st h)
    omega

theorem byteStepAt_ns (d : Dialect) (v : List Nat) (k : Nat)
    (st : EngineState) (hqe : st.quote_escape = false)
    (hflag : d.parse_flag (v.getD k 0) = ParseFlags.NOT_SPECIAL) :
    byteStepAt d v k st
      = { st with
          field_start := if st.field_start < 0
            then (k : Int) - st.current_row_start else st.field_start,
          field_length := k + 1
            - ((if st.field_start < 0
                then (k : Int) - st.current_row_start
                else st.field_start).toNat + st.current_row_start) } := by
  obtain ⟨fs0, len0, crs0, qe0, dq0, flds0, rb0, rws0⟩ := st
  replace hqe : qe0 = false := hqe
  subst hqe
  unfold byteStepAt
  rw [hflag]
  rfl

theorem byteStepAt_delim (d : Dialect) (v : List Nat) (k : Nat)
    (st : EngineState) (hqe : st.quote_escape = false)
    (hflag : d.parse_flag (v.getD k 0) = ParseFlags.DELIMITER) :
    byteStepAt d v k st = pushFieldSt st k := by
  obtain ⟨fs0, len0, crs0, qe0, dq0, flds0, rb0, rws0⟩ := st
  replace hqe : qe0 = false := hqe
  subst hqe
  unfold byteStepAt
  rw [hflag]
  rfl

theorem byteStepAt_newline (d : Dialect) (v : List Nat) (k : Nat)
    (st : EngineState) (hqe : st.quote_escape = false)
    (hflag : d.parse_flag (v.getD k 0) = ParseFlags.NEWLINE) :
    byteStepAt d v k st
      = { pushRowSt (pushFieldSt st k) with current_row_start := k + 1 } := by
  obtain ⟨fs0, len0, crs0, qe0, dq0, flds0, rb0, rws0⟩ := st
  replace hqe : qe0 = false := hqe
  subst hqe
  unfold byteStepAt
  rw [hflag]
  rfl

theorem byteStepAt_quote (d : Dialect) (v : List Nat) (k : Nat)
    (st : EngineState) (hqe : st.quote_escape = false)
    (hflag : d.parse_flag (v.getD k 0) = ParseFlags.QUOTE) :
    byteStepAt d v k st
      = { (if 0 ≤ st.field_start
            then { st with has_double_quote := true } else st) with
          quote_escape := true } := by
  obtain ⟨fs0, len0, crs0, qe0, dq0, flds0, rb0, rws0⟩ := st
  replace hqe : qe0 = false := hqe
  subst hqe
  unfold byteStepAt
  rw [hflag]
  rfl

theorem byteStepAt_qe_quote (d : Dialect) (v : List Nat) (k : Nat)
    (st : EngineState) (hqe : st.quote_escape = true)
    (hflag : d.parse_flag (v.getD k 0) = ParseFlags.QUOTE) :
    byteStepAt d v k st
      = { st with
          field_start := if st.field_start < 0
            then (k : Int) - st.current_row_start else st.field_start,
          field_length := k
            - ((if st.field_start < 0
                then (k : Int) - st.current_row_start
                else st.field_start).toNat + st.current_row_start),
          quote_escape := false } := by
  obtain ⟨fs0, len0, crs0, qe0, dq0, flds0, rb0, rws0⟩ := st
  replace hqe : qe0 = true := hqe
  subst hqe
  unfold byteStepAt
  rw [if_pos hflag]
  rfl

theorem byteStepAt_qe_content (d : Dialect) (v : List Nat) (k : Nat)
    (st : EngineState) (hqe : st.quote_escape = true)
    (hflag : d.parse_flag (v.getD k 0) ≠ ParseFlags.QUOTE) :
    byteStepAt d v k st
      = { st with
          field_start := if st.field_start < 0
            then (k : Int) - st.current_row_start else st.field_start,
          field_length := k + 1
            - ((if st.field_start < 0
                then (k : Int) - st.current_row_start
                else st.field_start).toNat + st.current_row_start) } := by
  obtain ⟨fs0, len0, crs0, qe0, dq0, flds0, rb0, rws0⟩ := st
  replace hqe : qe0 = true := hqe
  subst hqe
  unfold byteStepAt
  rw [if_neg hflag]
  rfl

theorem foldNS_aux (d : Dialect) (v : List Nat) :
    ∀ (s i : Nat) (st : EngineState),
      st.quote_escape = false → 0 ≤ st.field_start →
      (∀ k, i ≤ k → k < i + s →
        d.parse_flag (v.getD k 0) = ParseFlags.NOT_SPECIAL) →
      byteFoldF d v s i st
        = if s = 0 then st
          else { st with field_length :=
              i + s - (st.field_start.toNat + st.current_row_start) } := by
  intro s
  induction s with
  | zero => intro i st _ _ _; simp [byteFoldF]
  | succ s ih =>
    intro i st hqe hfs hall
    have hflag := hall i (le_refl i) (by omega)
    have hstep := byteStepAt_ns d v i st hqe hflag
    rw [if_neg (not_lt.mpr hfs)] at hstep
    rw [if_neg (Nat.succ_ne_zero s)]
    show byteFoldF d v s (i + 1) (byteStepAt d v i st) = _
    rw [hstep, ih (i + 1)
      { st with field_start := st.field_start,
                field_length :=
                  i + 1 - (st.field_start.toNat + st.current_row_start) }
      hqe hfs (fun k hk1 hk2 => hall k (by omega) (by omega))]
    by_cases hs0 : s = 0
    · subst hs0
      rw [if_pos rfl]
    · rw [if_neg hs0]
      simp only [EngineState.mk.injEq, eq_self_iff_true, true_and, and_true]
      omega

theorem foldQE_aux (d : Dialect) (v : List Nat) :
    ∀ (s i : Nat) (st : EngineState),
      st.quote_escape = true → 0 ≤ st.field_start →
      (∀ k, i ≤ k → k < i + s →
        d.parse_flag (v.getD k 0) ≠ ParseFlags.QUOTE) →
      byteFoldF d v s i st
        = if s = 0 then st
          else { st with field_length :=
              i + s - (st.field_start.toNat + st.current_row_start) } := by
  intro s
  induction s with
  | zero => intro i st _ _ _; simp [byteFoldF]
  | succ s ih =>
    intro i st hqe hfs hall
    have hflag := hall i (le_refl i) (by omega)
    have hstep := byteStepAt_qe_content d v i st hqe hflag
    rw [if_neg (not_lt.mpr hfs)] at hstep
    rw [if_neg (Nat.succ_ne_zero s)]
    show byteFoldF d v s (i + 1) (byteStepAt d v i st) = _
    rw [hstep, ih (i + 1)
      { st with field_start := st.field_start,
                field_length :=
                  i + 1 - (st.field_start.toNat + st.current_row_start) }
      hqe hfs (fun k hk1 hk2 => hall k (by omega) (by omega))]
    by_cases hs0 : s = 0
    · subst hs0
      rw [if_pos rfl]
    · rw [if_neg hs0]
      simp only [EngineState.mk.injEq, eq_self_iff_true, true_and, and_true]
      omega

theorem foldNS_run (d : Dialect) (v : List Nat) (s i : Nat)
    (st : EngineState) (hqe : st.quote_escape = false)
    (hcrs : st.current_row_start ≤ i) (hs : 1 ≤ s)
    (hall : ∀ k, i ≤ k → k < i + s →
      d.parse_flag (v.getD k 0) = ParseFlags.NOT_SPECIAL) :
    byteFoldF d v s i st
      = { st with
          field_start := if st.field_start < 0
            then (i : Int) - st.current_row_start else st.field_start,
          field_length := i + s
            - ((if st.field_start < 0
                then (i : Int) - st.current_row_start
                else st.field_start).toNat + st.current_row_start) } := by
  rcases s with _ | s
  · exact absurd hs (by decide)
  have hflag := hall i (le_refl i) (by omega)
  have hstep := byteStepAt_ns d v i st hqe hflag
  show byteFoldF d v s (i + 1) (byteStepAt d v i st) = _
  rw [hstep]
  have hFS : 0 ≤ (if st.field_start < 0
      then (i : Int) - st.current_row_start else st.field_start) := by
    split_ifs with h0 <;> omega
  rw [foldNS_aux d v s (i + 1)
    { st with
        field_start := if st.field_start < 0
          then (i : Int) - st.current_row_start else st.field_start,
        field_length := i + 1
          - ((if st.field_start < 0
              then (i : Int) - st.current_row_start
              else st.field_start).toNat + st.current_row_start) }
    hqe hFS (fun k hk1 hk2 => hall k (by omega) (by omega))]
  by_cases hs0 : s = 0
  · subst hs0
    rw [if_pos rfl]
  · rw [if_neg hs0]
    simp only [EngineState.mk.injEq, eq_self_iff_true, true_and, and_true]
    omega

theorem foldQE_run (d : Dialect) (v : List Nat) (s i : Nat)
    (st : EngineState) (hqe : st.quote_escape = true)
    (hcrs : st.current_row_start ≤ i) (hs : 1 ≤ s)
    (hall : ∀ k, i ≤ k → k < i + s →
      d.parse_flag (v.getD k 0) ≠ ParseFlags.QUOTE) :
    byteFoldF d v s i st
      = { st with
          field_start := if st.field_start < 0
            then (i : Int) - st.current_row_start else st.field_start,
          field_length := i + s
            - ((if st.field_start < 0
                then (i : Int) - st.current_row_start
                else st.field_start).toNat + st.current_row_start) } := by
  rcases s with _ | s
  · exact absurd hs (by decide)
  have hflag := hall i (le_refl i) (by omega)
  have hstep := byteStepAt_qe_content d v i st hqe hflag
  show byteFoldF d v s (i + 1) (byteStepAt d v i st) = _
  rw [hstep]
  have hFS : 0 ≤ (if st.field_start < 0
      then (i : Int) - st.current_row_start else st.field_start) := by
    split_ifs with h0 <;> omega
  rw [foldQE_aux d v s (i + 1)
    { st with
        field_start := if st.field_start < 0
          then (i : Int) - st.current_row_start else st.field_start,
        field_length := i + 1
          - ((if st.field_start < 0
              then (i : Int) - st.current_row_start
              else st.field_start).toNat + st.current_row_start) }
    hqe hFS (fun k hk1 hk2 => hall k (by omega) (by omega))]
  by_cases hs0 : s = 0
  · subst hs0
    rw [if_pos rfl]
  · rw [if_neg hs0]
    simp only [EngineState.mk.injEq, eq_self_iff_true, true_and, and_true]
    omega

theorem scanLoopF_stop (d : Dialect) (v : List Nat) (fuel i : Nat)
    (st : EngineState) (hlt : ¬ i < v.length) :
    scanLoopF d v (fuel + 1) i st = (i, st) := by
  conv_lhs => rw [scanLoopF]
  rw [if_neg hlt]

theorem scanLoopF_qe (d : Dialect) (v : List Nat) (fuel i : Nat)
    (st : EngineState) (hlt : i < v.length) (hqe : st.quote_escape = true) :
    scanLoopF d v (fuel + 1) i st
      = if (parse_field true d v i st.field_start st.current_row_start).1
            < v.length then
          scanLoopF d v fuel
            ((parse_field true d v i st.field_start st.current_row_start).1 + 1)
            { st with
                field_start :=
                  (parse_field true d v i st.field_start st.current_row_start).2.1,
                field_length :=
                  (parse_field true d v i st.field_start st.current_row_start).2.2,
                quote_escape := false }
        else
          ((parse_field true d v i st.field_start st.current_row_start).1,
            { st with
                field_start :=
                  (parse_field true d v i st.field_start st.current_row_start).2.1,
                field_length :=
                  (parse_field true d v i st.field_start st.current_row_start).2.2 }) := by
  obtain ⟨fs0, len0, crs0, qe0, dq0, flds0, rb0, rws0⟩ := st
  replace hqe : qe0 = true := hqe
  subst hqe
  conv_lhs => rw [scanLoopF]
  rw [if_pos hlt]
  rfl

theorem scanLoopF_ns (d : Dialect) (v : List Nat) (fuel i : Nat)
    (st : EngineState) (hlt : i < v.length) (hqe : st.quote_escape = false)
    (hflag : d.parse_flag (v.getD i 0) = ParseFlags.NOT_SPECIAL) :
    scanLoopF d v (fuel + 1) i st
      = scanLoopF d v fuel
          (parse_field false d v i st.field_start st.current_row_start).1
          { st with
              field_start :=
                (parse_field false d v i st.field_start st.current_row_start).2.1,
              field_length :=
                (parse_field false d v i st.field_start st.current_row_start).2.2 } := by
  obtain ⟨fs0, len0, crs0, qe0, dq0, flds0, rb0, rws0⟩ := st
  replace hqe : qe0 = false := hqe
  subst hqe
  conv_lhs => rw [scanLoopF]
  rw [if_pos hlt, hflag]
  rfl

theorem scanLoopF_delim (d : Dialect) (v : List Nat) (fuel i : Nat)
    (st : EngineState) (hlt : i < v.length) (hqe : st.quote_escape = false)
    (hflag : d.parse_flag (v.getD i 0) = ParseFlags.DELIMITER) :
    scanLoopF d v (fuel + 1) i st
      = scanLoopF d v fuel (i + 1) (pushFieldSt st i) := by
  obtain ⟨fs0, len0, crs0, qe0, dq0, flds0, rb0, rws0⟩ := st
  replace hqe : qe0 = false := hqe
  subst hqe
  conv_lhs => rw [scanLoopF]
  rw [if_pos hlt, hflag]
  rfl

theorem scanLoopF_newline (d : Dialect) (v : List Nat) (fuel i : Nat)
    (st : EngineState) (hlt : i < v.length) (hqe : st.quote_escape = false)
    (hflag : d.parse_flag (v.getD i 0) = ParseFlags.NEWLINE) :
    scanLoopF d v (fuel + 1) i st
      = scanLoopF d v fuel (i + 1)
          { pushRowSt (pushFieldSt st i) with current_row_start := i + 1 } := by
  obtain ⟨fs0, len0, crs0, qe0, dq0, flds0, rb0, rws0⟩ := st
  replace hqe : qe0 = false := hqe
  subst hqe
  conv_lhs => rw [scanLoopF]
  rw [if_pos hlt, hflag]
  rfl

theorem scanLoopF_quote (d : Dialect) (v : List Nat) (fuel i : Nat)
    (st : EngineState) (hlt : i < v.length) (hqe : st.quote_escape = false)
    (hflag : d.parse_flag (v.getD i 0) = ParseFlags.QUOTE) :
    scanLoopF d v (fuel + 1) i st
      = scanLoopF d v fuel (i + 1)
          { (if 0 ≤ st.field_start
              then { st with has_double_quote := true } else st) with
            quote_escape := true } := by
  obtain ⟨fs0, len0, crs0, qe0, dq0, flds0, rb0, rws0⟩ := st
  replace hqe : qe0 = false := hqe
  subst hqe
  conv_lhs => rw [scanLoopF]
  rw [if_pos hlt, hflag]
  rfl

theorem scanLoopF_qe_hws (d : Dialect) (v : List Nat)
    (hws : ∀ b, d.ws_flag b = false) (fuel i : Nat) (st : EngineState)
    (hlt : i < v.length) (hqe : st.quote_escape = true) :
    scanLoopF d v (fuel + 1) i st
      = if i + nqRun d (v.drop i) < v.length then
          scanLoopF d v fuel (i + nqRun d (v.drop i) + 1)
            { st with
                field_start := if st.field_start < 0
                  then (i : Int) - st.current_row_start else st.field_start,
                field_length := i + nqRun d (v.drop i)
                  - ((if st.field_start < 0
                      then (i : Int) - st.current_row_start
                      else st.field_start).toNat + st.current_row_start),
                quote_escape := false }
        else
          (i + nqRun d (v.drop i),
            { st with
                field_start := if st.field_start < 0
                  then (i : Int) - st.current_row_start else st.field_start,
                field_length := i + nqRun d (v.drop i)
                  - ((if st.field_start < 0
                      then (i : Int) - st.current_row_start
                      else st.field_start).toNat + st.current_row_start) }) := by
  rw [scanLoopF_qe d v fuel i st hlt hqe,
    parse_field_hws d hws true v i st.field_start st.current_row_start]
  rfl

theorem scanLoopF_ns_hws (d : Dialect) (v : List Nat)
    (hws : ∀ b, d.ws_flag b = false) (fuel i : Nat) (st : EngineState)
    (hlt : i < v.length) (hqe : st.quote_escape = false)
    (hflag : d.parse_flag (v.getD i 0) = ParseFlags.NOT_SPECIAL) :
    scanLoopF d v (fuel + 1) i st
      = scanLoopF d v fuel (i + nsRun d (v.drop i))
          { st with
              field_start := if st.field_start < 0
                then (i : Int) - st.current_row_start else st.field_start,
              field_length := i + nsRun d (v.drop i)
                - ((if st.field_start < 0
                    then (i : Int) - st.current_row_start
                    else st.field_start).toNat + st.current_row_start) } := by
  rw [scanLoopF_ns d v fuel i st hlt hqe hflag,
    parse_field_hws d hws false v i st.field_start st.current_row_start]
  rfl

theorem byteStepAt_qe_quote_nonneg (d : Dialect) (v : List Nat) (k : Nat)
    (st : EngineState) (hqe : st.quote_escape = true)
    (hfs : 0 ≤ st.field_start)
    (hflag : d.parse_flag (v.getD k 0) = ParseFlags.QUOTE) :
    byteStepAt d v k st
      = { st with
          field_length := k - (st.field_start.toNat + st.current_row_start),
          quote_escape := false } := by
  rw [byteStepAt_qe_quote d v k st hqe hflag, if_neg (not_lt.mpr hfs)]

/-- A quote-escape content run followed by its closing quote byte: the
engine records the field length up to the quote and leaves quote-escape
mode. -/
theorem foldQE_close (d : Dialect) (v : List Nat) (i : Nat)
    (st : EngineState) (hqe : st.quote_escape = true)
    (hcrs : st.current_row_start ≤ i)
    (hstop : i + nqRun d (v.drop i) < v.length) :
    byteFoldF d v (nqRun d (v.drop i) + 1) i st
      = { st with
          field_start := if st.field_start < 0
            then (i : Int) - st.current_row_start else st.field_start,
          field_length := i + nqRun d (v.drop i)
            - ((if st.field_start < 0
                then (i : Int) - st.current_row_start
                else st.field_start).toNat + st.current_row_start),
          quote_escape := false } := by
  have hquote := nqRun_stop d v i hstop
  have hFS : 0 ≤ (if st.field_start < 0
      then (i : Int) - st.current_row_start else st.field_start) := by
    split_ifs with h0 <;> omega
  by_cases hnq : nqRun d (v.drop i) = 0
  · rw [hnq] at hquote
    have hflag : d.parse_flag (v.getD i 0) = ParseFlags.QUOTE := by
      simpa using hquote
    have hstep := byteStepAt_qe_quote d v i st hqe hflag
    rw [hnq]
    show byteFoldF d v 0 (i + 1) (byteStepAt d v i st) = _
    rw [show byteFoldF d v 0 (i + 1) (byteStepAt d v i st)
        = byteStepAt d v i st from rfl, hstep]
    simp only [EngineState.mk.injEq, eq_self_iff_true, true_and, and_true]
    omega
  · have hnq1 : 1 ≤ nqRun d (v.drop i) := by omega
    rw [byteFoldF_add d v (nqRun d (v.drop i)) 1 i st]
    rw [foldQE_run d v (nqRun d (v.drop i)) i st hqe hcrs hnq1
      (fun k hk1 hk2 => nqRun_all d v i k hk1 hk2)]
    have hstep := byteStepAt_qe_quote_nonneg d v (i + nqRun d (v.drop i))
      { st with
          field_start := if st.field_start < 0
            then (i : Int) - st.current_row_start else st.field_start,
          field_length := i + nqRun d (v.drop i)
            - ((if st.field_start < 0
                then (i : Int) - st.current_row_start
                else st.field_start).toNat + st.current_row_start) }
      hqe hFS hquote
    rw [show byteFoldF d v 1 (i + nqRun d (v.drop i))
        ({ st with
            field_start := if st.field_start < 0
              then (i : Int) - st.current_row_start else st.field_start,
            field_length := i + nqRun d (v.drop i)
              - ((if st.field_start < 0
                  then (i : Int) - st.current_row_start
                  else st.field_start).toNat + st.current_row_start) }
          : EngineState)
        = byteStepAt d v (i + nqRun d (v.drop i))
            { st with
                field_start := if st.field_start < 0
                  then (i : Int) - st.current_row_start else st.field_start,
                field_length := i + nqRun d (v.drop i)
                  - ((if st.field_start < 0
                      then (i : Int) - st.current_row_start
                      else st.field_start).toNat + st.current_row_start) }
        from rfl, hstep]

/-- With whitespace trimming disabled, the chunked scanning loop computes
exactly the per-byte fold over its range and always stops at the chunk
end. -/
theorem scanLoop_eq_byteFold (d : Dialect) (v : List Nat)
    (hws : ∀ b, d.ws_flag b = false) :
    ∀ (fuel i : Nat) (st : EngineState),
      i ≤ v.length → st.current_row_start ≤ i → v.length ≤ i + fuel →
      scanLoopF d v fuel i st
        = (v.length, byteFoldF d v (v.length - i) i st) := by
  intro fuel
  induction fuel with
  | zero =>
    intro i st hi hcrs hfuel
    have hieq : i = v.length := by omega
    subst hieq
    rw [Nat.sub_self]
    rfl
  | succ fuel ih =>
    intro i st hi hcrs hfuel
    by_cases hlt : i < v.length
    case neg =>
      have hieq : i = v.length := by omega
      subst hieq
      rw [scanLoopF_stop d v fuel v.length st hlt, Nat.sub_self]
      rfl
    case pos =>
      by_cases hqe : st.quote_escape
      case pos =>
        have hnqle : nqRun d (v.drop i) ≤ v.length - i := by
          have := nqRun_le d (v.drop i)
          rwa [List.length_drop] at this
        rw [scanLoopF_qe_hws d v hws fuel i st hlt hqe]
        by_cases hstop : i + nqRun d (v.drop i) < v.length
        case pos =>
          rw [if_pos hstop]
          rw [ih (i + nqRun d (v.drop i) + 1)
            { st with
                field_start := if st.field_start < 0
                  then (i : Int) - st.current_row_start else st.field_start,
                field_length := i + nqRun d (v.drop i)
                  - ((if st.field_start < 0
                      then (i : Int) - st.current_row_start
                      else st.field_start).toNat + st.current_row_start),
                quote_escape := false }
            (by omega)
            (show st.current_row_start ≤ i + nqRun d (v.drop i) + 1 by omega)
            (by omega)]
          simp only [Prod.mk.injEq, eq_self_iff_true, true_and]
          rw [show v.length - i
              = (nqRun d (v.drop i) + 1)
                + (v.length - (i + nqRun d (v.drop i) + 1)) by omega,
            byteFoldF_add,
            show i + (nqRun d (v.drop i) + 1)
              = i + nqRun d (v.drop i) + 1 by omega,
            foldQE_close d v i st hqe hcrs hstop]
        case neg =>
          rw [if_neg hstop]
          have heq : i + nqRun d (v.drop i) = v.length := by omega
          rw [show v.length - i = nqRun d (v.drop i) by omega,
            foldQE_run d v (nqRun d (v.drop i)) i st hqe hcrs (by omega)
              (fun k hk1 hk2 => nqRun_all d v i k hk1 hk2)]
          simp only [Prod.mk.injEq, eq_self_iff_true, and_true]
          exact heq
      case neg =>
        have hqe' : st.quote_escape = false := by
          simpa using hqe
        rcases hflag : d.parse_flag (v.getD i 0) with _ | _ | _ | _
        case NOT_SPECIAL =>
          have hnsle : nsRun d (v.drop i) ≤ v.length - i := by
            have := nsRun_le d (v.drop i)
            rwa [List.length_drop] at this
          have hns1 : 1 ≤ nsRun d (v.drop i) := nsRun_pos d v i hlt hflag
          rw [scanLoopF_ns_hws d v hws fuel i st hlt hqe' hflag]
          rw [ih (i + nsRun d (v.drop i))
            { st with
                field_start := if st.field_start < 0
                  then (i : Int) - st.current_row_start else st.field_start,
                field_length := i + nsRun d (v.drop i)
                  - ((if st.field_start < 0
                      then (i : Int) - st.current_row_start
                      else st.field_start).toNat + st.current_row_start) }
            (by omega)
            (show st.current_row_start ≤ i + nsRun d (v.drop i) by omega)
            (by omega)]
          simp only [Prod.mk.injEq, eq_self_iff_true, true_and]
          rw [show v.length - i
              = nsRun d (v.drop i) + (v.length - (i + nsRun d (v.drop i)))
              by omega,
            byteFoldF_add,
            foldNS_run d v (nsRun d (v.drop i)) i st hqe' hcrs hns1
              (fun k hk1 hk2 => nsRun_all d v i k hk1 hk2)]
        case DELIMITER =>
          rw [scanLoopF_delim d v fuel i st hlt hqe' hflag]
          rw [ih (i + 1) (pushFieldSt st i) (by omega)
            (show st.current_row_start ≤ i + 1 by omega) (by omega)]
          simp only [Prod.mk.injEq, eq_self_iff_true, true_and]
          rw [show v.length - i = 1 + (v.length - (i + 1)) by omega,
            byteFoldF_add,
            show byteFoldF d v 1 i st = byteStepAt d v i st from rfl,
            byteStepAt_delim d v i st hqe' hflag]
        case NEWLINE =>
          rw [scanLoopF_newline d v fuel i st hlt hqe' hflag]
          rw [ih (i + 1)
            { pushRowSt (pushFieldSt st i) with current_row_start := i + 1 }
            (by omega) (show i + 1 ≤ i + 1 from le_refl _) (by omega)]
          simp only [Prod.mk.injEq, eq_self_iff_true, true_and]
          rw [show v.length - i = 1 + (v.length - (i + 1)) by omega,
            byteFoldF_add,
            show byteFoldF d v 1 i st = byteStepAt d v i st from rfl,
            byteStepAt_newline d v i st hqe' hflag]
        case QUOTE =>
          rw [scanLoopF_quote d v fuel i st hlt hqe' hflag]
          rw [ih (i + 1)
            { (if 0 ≤ st.field_start
                then { st with has_double_quote := true } else st) with
              quote_escape := true }
            (by omega) ?hcq (by omega)]
          case hcq =>
            by_cases h0 : (0 : Int) ≤ st.field_start
            · rw [if_pos h0]
              exact (show st.current_row_start ≤ i + 1 by omega)
            · rw [if_neg h0]
              exact (show st.current_row_start ≤ i + 1 by omega)
          simp only [Prod.mk.injEq, eq_self_iff_true, true_and]
          rw [show v.length - i = 1 + (v.length - (i + 1)) by omega,
            byteFoldF_add,
            show byteFoldF d v 1 i st = byteStepAt d v i st from rfl,
            byteStepAt_quote d v i st hqe' hflag]

/-- C1 counterexample: the claim — two-chunk parsing at any split equals
one-shot parsing — is false with whitespace trimming enabled: on the
buffer "␣␣a" (space, space, 'a') split at byte 1, the first chunk's
`parse_field` exhausts the chunk inside the leading whitespace and
persists `field_start = 1`; the resumed scan keeps it, yielding the field
descriptor (1, 2) (text "␣a"), while the single-chunk parse trims both
spaces and yields (2, 1) (text "a"). -/
theorem C1_counterexample :
    1 ≤ ([32, 32, 97] : List Nat).length ∧
    parseSplitM dcTrim [32, 32, 97] 1 ≠ parseWholeM dcTrim [32, 32, 97] := by
  refine ⟨by decide, ?_⟩
  decide

/-- C1 (amended): with no byte classified as trimmable whitespace
(whitespace trimming disabled), parsing a buffer as two chunks — the first
with `last_block = false`, the second with `last_block = true` — produces
exactly the same engine result (same Raw Field Store and same rows) as one
parse of the whole buffer, for every split position.  The counterexample
shows the restriction is needed: a split inside a field's leading
whitespace shifts the persisted `field_start`. -/
theorem C1_chunk_split_no_trim (d : Dialect) (buf : List Nat) (k : Nat)
    (hws : ∀ b, d.ws_flag b = false) (hk : k ≤ buf.length) :
    parseSplitM d buf k = parseWholeM d buf := by
  have hlen1 : (buf.take k).length = k := by
    rw [List.length_take]
    omega
  have hinit : (initState.current_row_start) ≤ 0 := le_refl 0
  have h1 := scanLoop_eq_byteFold d (buf.take k) hws k 0 initState
    (Nat.zero_le _) hinit (by rw [hlen1]; omega)
  have h2 : scan d buf 0 k initState
      = (k, byteFoldF d buf k 0 initState) := by
    rw [scan, Nat.sub_zero, h1, hlen1, Nat.sub_zero,
      byteFoldF_take d buf k k 0 initState (by omega)]
  have hst1crs : (byteFoldF d buf k 0 initState).current_row_start ≤ k := by
    have := byteFoldF_crs d buf k 0 initState hinit
    omega
  have h3 : scan d buf k buf.length (byteFoldF d buf k 0 initState)
      = (buf.length,
          byteFoldF d buf (buf.length - k) k
            (byteFoldF d buf k 0 initState)) := by
    rw [scan, List.take_length]
    exact scanLoop_eq_byteFold d buf hws (buf.length - k) k _ hk hst1crs
      (by omega)
  have h4 : scan d buf 0 buf.length initState
      = (buf.length, byteFoldF d buf buf.length 0 initState) := by
    rw [scan, List.take_length, Nat.sub_zero]
    have := scanLoop_eq_byteFold d buf hws buf.length 0 initState
      (Nat.zero_le _) hinit (by omega)
    rw [this, Nat.sub_zero]
  simp only [parseSplitM, parseWholeM]
  rw [h2]
  show finalizeLast
      (scan d buf k buf.length (byteFoldF d buf k 0 initState)).1
      (scan d buf k buf.length (byteFoldF d buf k 0 initState)).2 = _
  rw [h3, h4]
  show finalizeLast buf.length
      (byteFoldF d buf (buf.length - k) k (byteFoldF d buf k 0 initState))
    = finalizeLast buf.length (byteFoldF d buf buf.length 0 initState)
  have hcomp := byteFoldF_add d buf k (buf.length - k) 0 initState
  rw [Nat.zero_add] at hcomp
  rw [show k + (buf.length - k) = buf.length by omega] at hcomp
  rw [← hcomp]

/-- C1 witness: the spec's own two-chunk example — `a,b,"c,d"\ne,f,g`
split after the comma inside quotes (position 7) — equals the single-chunk
parse when no trimming is configured. -/
theorem C1_witness :
    parseSplitM dcPlain
        [97, 44, 98, 44, 34, 99, 44, 100, 34, 10, 101, 44, 102, 44, 103] 7
      = parseWholeM dcPlain
        [97, 44, 98, 44, 34, 99, 44, 100, 34, 10, 101, 44, 102, 44, 103] :=
  C1_chunk_split_no_trim dcPlain
    [97, 44, 98, 44, 34, 99, 44, 100, 34, 10, 101, 44, 102, 44, 103] 7
    (fun _ => rfl) (by decide)

end CsvParser
